import Mathlib

/-!
Shallow embedding of the skill-analysis core of `src/hh_vac_analyzer/analyzer.py`
(class `SkillNormalizer`, functions `is_soft_skill`, `is_language_level`,
`analyze_skills`), together with theorems settling the frozen claims about it.

Conventions of the embedding:
* Python strings are Lean `String` (a list of Unicode scalar values, like
  Python's code-point view of `str`).
* `str.lower` / `str.upper` / `str.title` are modelled character-wise for the
  ASCII and Cyrillic ranges actually used by this repository; characters of
  other scripts are returned unchanged.
* Python regular expressions are embedded as an executable derivative-based
  matcher over an inductive regex type; `re.search` is existence of a match
  starting at any position, the one `^`-anchored pattern uses a match at
  position 0 only.  `re.IGNORECASE` (used only by `is_language_level`) is
  modelled by matching the lower-cased subject against the lower-cased
  pattern, which is equivalent for the character classes occurring there.
* Python's `dict` preserves insertion order and overwrites on key collision;
  `Counter` iterates keys in first-insertion order; `sorted` and
  `Counter.most_common` are stable sorts.  All of this is modelled exactly
  (first-occurrence deduplication, upsert association lists, stable insertion
  sort).  The only intentionally determinised spot is the iteration order of
  the Python `set` in the co-occurrence loop, which is unspecified in the
  source (hash order); we use first-occurrence order.  The derived pair
  counter is independent of that order because pair keys are sorted 2-tuples.
-/

namespace HH

/-! ## Character-level model of `str.lower`, `str.upper`, `str.title`, `str.strip` -/

/-- Python `c.lower()` for ASCII `A`-`Z` and Cyrillic `А`-`Я`, `Ё`; other
characters unchanged. -/
def pyLowerChar (c : Char) : Char :=
  if 'A' ≤ c ∧ c ≤ 'Z' then Char.ofNat (c.toNat + 32)
  else if 'А' ≤ c ∧ c ≤ 'Я' then Char.ofNat (c.toNat + 0x20)
  else if c = 'Ё' then 'ё'
  else c

/-- Python `c.upper()` for ASCII `a`-`z` and Cyrillic `а`-`я`, `ё`; other
characters unchanged. -/
def pyUpperChar (c : Char) : Char :=
  if 'a' ≤ c ∧ c ≤ 'z' then Char.ofNat (c.toNat - 32)
  else if 'а' ≤ c ∧ c ≤ 'я' then Char.ofNat (c.toNat - 0x20)
  else if c = 'ё' then 'Ё'
  else c

/-- Python `s.lower()`. -/
def pyLower (s : String) : String := String.mk (s.data.map pyLowerChar)

/-- Cased characters (those `str.title` upper/lower-cases) in the modelled
ASCII and Cyrillic ranges. -/
def isCased (c : Char) : Bool :=
  (decide ('A' ≤ c) && decide (c ≤ 'Z')) || (decide ('a' ≤ c) && decide (c ≤ 'z')) ||
  (decide ('А' ≤ c) && decide (c ≤ 'Я')) || (decide ('а' ≤ c) && decide (c ≤ 'я')) ||
  c == 'Ё' || c == 'ё'

/-- Python whitespace (the class `\s` of `re` and the default of `str.strip`):
ASCII whitespace plus the common Unicode space characters. -/
def isPyWs (c : Char) : Bool :=
  c == ' ' || c == '\t' || c == '\n' || c == '\r' || c == '\x0b' || c == '\x0c' ||
  c == '\x1c' || c == '\x1d' || c == '\x1e' || c == '\x1f' || c == '\x85' || c == '\xa0' ||
  c == ' ' || (decide (0x2000 ≤ c.toNat) && decide (c.toNat ≤ 0x200a)) ||
  c == ' ' || c == ' ' || c == ' ' || c == ' ' || c == '　'

/-- Character stream of Python `s.title()`: the first character of every run of
cased characters is upper-cased, the rest of the run lower-cased; uncased
characters delimit runs and pass through. -/
def titleMap : Bool → List Char → List Char
  | _, [] => []
  | prevCased, c :: cs =>
    (if isCased c then (if prevCased then pyLowerChar c else pyUpperChar c) else c)
      :: titleMap (isCased c) cs

/-- Python `s.title()`. -/
def pyTitle (s : String) : String := String.mk (titleMap false s.data)

/-- Python `s.strip()` (no argument): drop leading and trailing whitespace. -/
def pyStrip (s : String) : String :=
  String.mk (((s.data.dropWhile isPyWs).reverse.dropWhile isPyWs).reverse)

/-! ## Executable regular expressions (Brzozowski derivatives)

Only the constructs used by `analyzer.py` are needed: literal characters,
character classes, `.`, concatenation, alternation, `*`, `?`. -/

/-- Regular expressions; `cls` is an arbitrary decidable character class. -/
inductive RE where
  | emp : RE
  | eps : RE
  | cls : (Char → Bool) → RE
  | cat : RE → RE → RE
  | alt : RE → RE → RE
  | star : RE → RE

/-- Does the regex accept the empty string? -/
def RE.nullable : RE → Bool
  | .emp => false
  | .eps => true
  | .cls _ => false
  | .cat a b => a.nullable && b.nullable
  | .alt a b => a.nullable || b.nullable
  | .star _ => true

/-- Alternation, simplifying the `emp` unit so derivatives stay small. -/
def RE.altS : RE → RE → RE
  | .emp, r => r
  | r, .emp => r
  | a, b => .alt a b

/-- Concatenation, simplifying `emp` and `eps` so derivatives stay small. -/
def RE.catS : RE → RE → RE
  | .emp, _ => .emp
  | _, .emp => .emp
  | .eps, r => r
  | r, .eps => r
  | a, b => .cat a b

/-- Brzozowski derivative of a regex by one character. -/
def RE.deriv : RE → Char → RE
  | .emp, _ => .emp
  | .eps, _ => .emp
  | .cls p, c => if p c then .eps else .emp
  | .cat a b, c => RE.altS (RE.catS (a.deriv c) b) (if a.nullable then b.deriv c else .emp)
  | .alt a b, c => RE.altS (a.deriv c) (b.deriv c)
  | .star a, c => RE.catS (a.deriv c) (.star a)

/-- Does the regex match some prefix of the character list?  This is Python
`re.match` at the current position (used for the `^`-anchored pattern). -/
def RE.matchStart (r : RE) : List Char → Bool
  | [] => r.nullable
  | c :: cs => r.nullable || (r.deriv c).matchStart cs

/-- Does the regex match starting at some position?  This is Python
`re.search` returning a match object (truthiness of the result). -/
def RE.search (r : RE) : List Char → Bool
  | [] => r.nullable
  | c :: cs => r.matchStart (c :: cs) || r.search cs

/-- Literal-string regex. -/
def RE.lit (s : String) : RE := s.data.foldr (fun c r => .cat (.cls (fun x => x == c)) r) .eps

/-- Regex `.` without `re.DOTALL`: any character except a newline. -/
def RE.dot : RE := .cls (fun c => c != '\n')

/-- Regex `.?`. -/
def RE.dotOpt : RE := .alt .eps RE.dot

/-- Regex `.*`. -/
def RE.dotStar : RE := .star RE.dot

/-- Concatenation of a pattern list. -/
def RE.catL (rs : List RE) : RE := rs.foldr RE.cat .eps

/-- Alternation of a pattern list. -/
def RE.altL (rs : List RE) : RE := rs.foldr RE.alt .emp

/-! ## The classifiers (`is_soft_skill`, `is_language_level` of `analyzer.py`) -/

/-- The `soft_patterns` list of `is_soft_skill` (analyzer.py lines 103-112),
in source order; patterns are matched against the lower-cased skill. -/
def soft_patterns : List RE :=
  [ RE.lit "коммуникаб", RE.lit "ответствен", RE.lit "стрессоуст", RE.lit "самостоятел",
    RE.lit "инициатив", RE.lit "обучаем", RE.lit "внимател", RE.lit "аккуратн",
    RE.lit "командн", RE.lit "работа в команд",
    RE.catL [RE.lit "team", RE.dotOpt, RE.lit "work"], RE.lit "communication",
    RE.lit "leadership", RE.lit "лидерств", RE.lit "мотивац", RE.lit "дисциплин",
    RE.lit "пунктуальн", RE.lit "исполнительн", RE.lit "креатив", RE.lit "гибкост",
    RE.lit "адаптив", RE.lit "многозадачн",
    RE.catL [RE.lit "тайм", RE.dotOpt, RE.lit "менеджмент"],
    RE.catL [RE.lit "time", RE.dotOpt, RE.lit "management"],
    RE.catL [RE.lit "problem", RE.dotOpt, RE.lit "solving"], RE.lit "решение проблем",
    RE.catL [RE.lit "аналитическ", RE.dotStar, RE.lit "мышлен"],
    RE.catL [RE.lit "критическ", RE.dotStar, RE.lit "мышлен"],
    RE.lit "переговор", RE.lit "презентац" ]

/-- Source `is_soft_skill` (analyzer.py lines 101-114): any pattern found in
the lower-cased skill. -/
def is_soft_skill (skill : String) : Bool :=
  soft_patterns.any (fun p => p.search (pyLower skill).data)

/-- Character class `[—\-–]` (em dash, hyphen-minus, en dash). -/
def dashCls : RE := .cls (fun c => c == '—' || c == '-' || c == '–')

/-- Character class `[A-C]` under `re.IGNORECASE`, on the lower-cased subject. -/
def levelLetter : RE := .cls (fun c => decide ('a' ≤ c) && decide (c ≤ 'c'))

/-- Character class `[1-2]`. -/
def levelDigit : RE := .cls (fun c => c == '1' || c == '2')

/-- Pattern `английский.*[—\-–].*[A-C][1-2]` (IGNORECASE, modelled on the
lower-cased subject). -/
def lang_pat1 : RE :=
  RE.catL [RE.lit "английский", RE.dotStar, dashCls, RE.dotStar, levelLetter, levelDigit]

/-- Pattern `english.*[—\-–].*[A-C][1-2]` (IGNORECASE, lower-cased subject). -/
def lang_pat2 : RE :=
  RE.catL [RE.lit "english", RE.dotStar, dashCls, RE.dotStar, levelLetter, levelDigit]

/-- Pattern `^[A-C][1-2]\s*[—\-–]` without its anchor (the anchor is expressed
by using `matchStart` instead of `search`). -/
def lang_pat3 : RE :=
  RE.catL [levelLetter, levelDigit, RE.star (.cls isPyWs), dashCls]

/-- Pattern `(intermediate|upper|beginner|advanced|native|fluent)`. -/
def lang_pat4 : RE :=
  RE.altL [RE.lit "intermediate", RE.lit "upper", RE.lit "beginner",
           RE.lit "advanced", RE.lit "native", RE.lit "fluent"]

/-- Pattern `(средний|продвинут|начальн|свободн|базов).*уровень`. -/
def lang_pat5 : RE :=
  RE.catL [RE.altL [RE.lit "средний", RE.lit "продвинут", RE.lit "начальн",
                    RE.lit "свободн", RE.lit "базов"],
           RE.dotStar, RE.lit "уровень"]

/-- Source `is_language_level` (analyzer.py lines 117-126): the five patterns
with `re.IGNORECASE`, modelled by searching the lower-cased skill. -/
def is_language_level (skill : String) : Bool :=
  let l := (pyLower skill).data
  lang_pat1.search l || lang_pat2.search l || lang_pat3.matchStart l ||
  lang_pat4.search l || lang_pat5.search l

/-! ## The normalizer (`SkillNormalizer` of `analyzer.py`) -/

/-- The `SkillNormalizer.SYNONYMS` dictionary (analyzer.py lines 24-78), as an
association list in source order.  Source order matters: the constructor
collapses colliding keys with last-writer-wins. -/
def SYNONYMS : List (String × String) :=
  [ ("go", "Golang"), ("golang", "Golang"), ("go lang", "Golang"),
    ("postgresql", "PostgreSQL"), ("postgres", "PostgreSQL"), ("postgesql", "PostgreSQL"),
    ("k8s", "Kubernetes"), ("кубернетес", "Kubernetes"),
    ("apache kafka", "Kafka"), ("kafka", "Kafka"),
    ("rest api", "REST"), ("restful", "REST"), ("rest", "REST"),
    ("микросервисная архитектура", "Microservices"), ("микросервисы", "Microservices"),
    ("docker-compose", "Docker"), ("докер", "Docker"),
    ("git", "Git"), ("github", "Git"), ("gitlab", "Git"),
    ("sql", "SQL"), ("mysql", "SQL"), ("ms sql", "SQL"),
    ("linux", "Linux/Unix"), ("unix", "Linux/Unix"),
    ("ci/cd", "CI/CD"), ("gitlab ci", "CI/CD"), ("teamcity", "CI/CD"), ("jenkins", "CI/CD"),
    ("clickhouse", "ClickHouse"),
    ("хайлоад", "Highload"), ("высоконагруженные системы", "Highload"),
    ("rabbitmq", "RabbitMQ"), ("redis", "Redis"), ("mongodb", "MongoDB"),
    ("nosql", "NoSQL"), ("nginx", "Nginx"),
    ("c++", "C/C++"), ("c/c++", "C/C++"), ("c#", "C#"),
    ("python", "Python"), ("питон", "Python"),
    ("java", "Java"), ("javascript", "JavaScript"), ("js", "JavaScript"),
    ("typescript", "TypeScript"), ("ts", "TypeScript"),
    ("react", "React"), ("react.js", "React"),
    ("vue", "Vue.js"), ("vue.js", "Vue.js"),
    ("node.js", "Node.js"), ("nodejs", "Node.js") ]

/-- Characters kept by `re.sub(r'[^a-z0-9]', '', ...)`. -/
def isKeyChar (c : Char) : Bool :=
  (decide ('a' ≤ c) && decide (c ≤ 'z')) || (decide ('0' ≤ c) && decide (c ≤ '9'))

/-- The processed lookup key: `re.sub(r'[^a-z0-9]', '', s.lower())`
(analyzer.py lines 85 and 91). -/
def stripKey (s : String) : String := String.mk ((pyLower s).data.filter isKeyChar)

/-- Insertion into an association list with Python-`dict` semantics: an
existing key keeps its position and gets the new value, a new key is appended. -/
def upsert : List (String × String) → String → String → List (String × String)
  | [], k, v => [(k, v)]
  | (k0, v0) :: rest, k, v =>
    if k0 = k then (k0, v) :: rest else (k0, v0) :: upsert rest k v

/-- The `self.mapping` dict built by `SkillNormalizer.__init__`
(analyzer.py lines 80-86): processed variants mapped to canonical names,
later entries overwriting earlier ones on key collision. -/
def mapping : List (String × String) :=
  SYNONYMS.foldl (fun m e => upsert m (stripKey e.1) e.2) []

/-- Source `SkillNormalizer.normalize` (analyzer.py lines 88-98): synonym-table
lookup on the stripped key, else `skill.strip().title()`. -/
def normalize (skill : String) : String :=
  match mapping.lookup (stripKey skill) with
  | some canonical => canonical
  | none => pyTitle (pyStrip skill)

/-! ## Counters, stable sorting (Python `Counter`, `dict`, `sorted`) -/

/-- First-occurrence deduplication, carrying the set of already-seen elements;
this is the key order of a Python `dict` or `Counter` built by iteration. -/
def dedupFirstAux [DecidableEq α] (seen : List α) : List α → List α
  | [] => []
  | x :: xs => if x ∈ seen then dedupFirstAux seen xs else x :: dedupFirstAux (x :: seen) xs

/-- Distinct elements of a list, first occurrences first. -/
def dedupFirst [DecidableEq α] (l : List α) : List α := dedupFirstAux [] l

/-- Number of occurrences of an element in a list. -/
def countOcc [DecidableEq α] (a : α) (l : List α) : Nat :=
  l.countP (fun b => decide (b = a))

/-- Python `Counter(l).items()`: distinct elements in first-insertion order,
each with its multiplicity. -/
def counterItems [DecidableEq α] (l : List α) : List (α × Nat) :=
  (dedupFirst l).map (fun a => (a, countOcc a l))

/-- Stable descending insertion by a `Nat` key: the new element goes after
every element with a strictly larger key and before the first element with a
key less than or equal to its own. -/
def insertDescBy (key : α → Nat) (x : α) : List α → List α
  | [] => [x]
  | y :: ys => if key x < key y then y :: insertDescBy key x ys else x :: y :: ys

/-- Stable sort by descending `Nat` key; agrees with Python's stable
`sorted(..., key=lambda e: -k(e))` / `Counter.most_common`. -/
def sortDescBy (key : α → Nat) : List α → List α
  | [] => []
  | x :: xs => insertDescBy key x (sortDescBy key xs)

/-! ## The aggregator (`_normalize_category` of `analyze_skills`) -/

/-- One canonical-skill bucket: `{'total_count': ..., 'variants': [...]}`. -/
structure Bucket where
  total_count : Nat
  variants : List (String × Nat)
deriving DecidableEq

/-- One step of the accumulation loop of `_normalize_category`
(analyzer.py lines 169-172): `normalized_data[canonical]['total_count'] += count`
and `normalized_data[canonical]['variants'][skill] = count`, with Python-dict
insertion-order semantics. -/
def addMention : List (String × Bucket) → String → String → Nat → List (String × Bucket)
  | [], canonical, skill, count => [(canonical, ⟨count, [(skill, count)]⟩)]
  | (c, b) :: rest, canonical, skill, count =>
    if c = canonical then
      (c, ⟨b.total_count + count, b.variants ++ [(skill, count)]⟩) :: rest
    else
      (c, b) :: addMention rest canonical skill count

/-- Source `_normalize_category` (analyzer.py lines 165-180): count raw
strings, group by canonical name, sort each variant list by descending count,
sort buckets by descending total count. -/
def normalize_category (raw_skills : List String) : List (String × Bucket) :=
  let grouped := (counterItems raw_skills).foldl
    (fun acc e => addMention acc (normalize e.1) e.1 e.2) []
  let sortedVariants := grouped.map
    (fun e => (e.1, Bucket.mk e.2.total_count (sortDescBy (fun kv => kv.2) e.2.variants)))
  sortDescBy (fun e => e.2.total_count) sortedVariants

/-! ## Vacancies, categorisation, co-occurrence, `analyze_skills` -/

/-- A vacancy as seen by the core: its `skills` list (`v.get('skills', [])`,
a missing field being the empty list). -/
structure Vacancy where
  skills : List String
deriving DecidableEq

/-- All skill mentions of the collection, in iteration order. -/
def allMentions (vacancies : List Vacancy) : List String :=
  (vacancies.map Vacancy.skills).flatten

/-- The `raw_languages` list of `analyze_skills` (lines 153-161): mentions for
which `is_language_level` fires. -/
def raw_languages (vacancies : List Vacancy) : List String :=
  (vacancies.map (fun v => v.skills.filter (fun s => is_language_level s))).flatten

/-- The `raw_soft` list (lines 153-161): mentions reaching the `elif` branch,
so `is_language_level` failed and `is_soft_skill` fired. -/
def raw_soft (vacancies : List Vacancy) : List String :=
  (vacancies.map (fun v => v.skills.filter
    (fun s => !is_language_level s && is_soft_skill s))).flatten

/-- The `raw_technical` list (lines 153-161): mentions reaching the `else`
branch. -/
def raw_technical (vacancies : List Vacancy) : List String :=
  (vacancies.map (fun v => v.skills.filter
    (fun s => !is_language_level s && !is_soft_skill s))).flatten

/-- Code-point-lexicographic comparison of character lists; this is how Python
compares strings. -/
def lexLe : List Char → List Char → Bool
  | [], _ => true
  | _ :: _, [] => false
  | a :: as, b :: bs =>
    if a.toNat < b.toNat then true
    else if b.toNat < a.toNat then false
    else lexLe as bs

/-- Python string comparison `s1 <= s2`. -/
def strLe (a b : String) : Bool := lexLe a.data b.data

/-- Python `tuple(sorted([s1, s2]))` (analyzer.py line 196): the two strings
in code-point order (a stable two-element sort swaps only when `s2 < s1`). -/
def pairKey (a b : String) : String × String :=
  if strLe a b = true then (a, b) else (b, a)

/-- The `current_raw_tech` list of the combo loop (line 190). -/
def tech_in_vacancy (v : Vacancy) : List String :=
  v.skills.filter (fun s => !is_soft_skill s && !is_language_level s)

/-- The `normalized_tech_in_vacancy` set of the combo loop (line 191) as a
duplicate-free list; Python iterates this set in unspecified hash order, we
use first-occurrence order (the derived pair counter is order-independent). -/
def normalized_tech_in_vacancy (v : Vacancy) : List String :=
  dedupFirst ((tech_in_vacancy v).map normalize)

/-- All position-ordered pairs of a list: the double loop
`for i, s1 in enumerate(u): for s2 in u[i+1:]` (lines 194-195). -/
def orderedPairs : List α → List (α × α)
  | [] => []
  | x :: xs => (xs.map (fun y => (x, y))) ++ orderedPairs xs

/-- The sorted pair keys one vacancy feeds into the `combos` counter
(lines 193-197). -/
def vacancyPairs (v : Vacancy) : List (String × String) :=
  (orderedPairs (normalized_tech_in_vacancy v)).map (fun p => pairKey p.1 p.2)

/-- The full stream of pair-counter increments over the collection
(lines 187-197). -/
def comboPairs (vacancies : List Vacancy) : List (String × String) :=
  (vacancies.map vacancyPairs).flatten

/-- The value of `combos[p]` after the loop. -/
def comboCount (vacancies : List Vacancy) (p : String × String) : Nat :=
  countOcc p (comboPairs vacancies)

/-- The result dictionary of `analyze_skills` (analyzer.py lines 199-207). -/
structure SkillsResult where
  technical : List (String × Bucket)
  soft : List (String × Bucket)
  languages : List (String × Bucket)
  total_mentions : Nat
  unique_raw : Nat
  unique_normalized : Nat
  combinations : List ((String × String) × Nat)
deriving DecidableEq

/-- Source `analyze_skills` (analyzer.py lines 146-207).
The `combinations` field is `combos.most_common(30)`: items in first-insertion
order, stably sorted by descending count, truncated to 30. -/
def analyze_skills (vacancies : List Vacancy) : SkillsResult :=
  { technical := normalize_category (raw_technical vacancies)
    soft := normalize_category (raw_soft vacancies)
    languages := normalize_category (raw_languages vacancies)
    total_mentions :=
      (raw_technical vacancies).length + (raw_soft vacancies).length +
        (raw_languages vacancies).length
    unique_raw :=
      (dedupFirst (raw_technical vacancies ++ raw_soft vacancies ++ raw_languages vacancies)).length
    unique_normalized :=
      (normalize_category (raw_technical vacancies)).length +
        (normalize_category (raw_soft vacancies)).length +
        (normalize_category (raw_languages vacancies)).length
    combinations :=
      (sortDescBy (fun e => e.2) (counterItems (comboPairs vacancies))).take 30 }

/-- The two-vacancy input of the end-to-end scenario (spec section 8 and
claim C2). -/
def exampleVacancies : List Vacancy :=
  [⟨["Go", "PostgreSQL", "стрессоустойчивость"]⟩, ⟨["golang", "Docker"]⟩]

/-- Number of distinct canonical names across the three output categories
combined, a name appearing in more than one category counted once.  This is
the quantity claim C4 asserts `unique_normalized` to equal (worded from the
spec, for comparison with the source computation). -/
def combinedDistinctCanonicals (vacancies : List Vacancy) : Nat :=
  (dedupFirst (((analyze_skills vacancies).technical ++ (analyze_skills vacancies).soft ++
    (analyze_skills vacancies).languages).map Prod.fst)).length

/-! ## Helper lemmas about the list machinery -/

theorem insertDescBy_perm (key : α → Nat) (x : α) (l : List α) :
    (insertDescBy key x l).Perm (x :: l) := by
  induction l with
  | nil => simp [insertDescBy]
  | cons y ys ih =>
    unfold insertDescBy
    split
    · exact (List.Perm.cons y ih).trans (List.Perm.swap x y ys)
    · exact List.Perm.refl _

theorem sortDescBy_perm (key : α → Nat) (l : List α) :
    (sortDescBy key l).Perm l := by
  induction l with
  | nil => exact List.Perm.refl _
  | cons x xs ih =>
    exact (insertDescBy_perm key x (sortDescBy key xs)).trans (List.Perm.cons x ih)

theorem sortDescBy_length (key : α → Nat) (l : List α) :
    (sortDescBy key l).length = l.length :=
  (sortDescBy_perm key l).length_eq

theorem sortDescBy_mem (key : α → Nat) (l : List α) (a : α) :
    a ∈ sortDescBy key l ↔ a ∈ l :=
  (sortDescBy_perm key l).mem_iff

theorem insertDescBy_sorted (key : α → Nat) (x : α) (l : List α)
    (h : List.Pairwise (fun a b => key b ≤ key a) l) :
    List.Pairwise (fun a b => key b ≤ key a) (insertDescBy key x l) := by
  induction l with
  | nil => simp [insertDescBy]
  | cons y ys ih =>
    rw [List.pairwise_cons] at h
    unfold insertDescBy
    split
    · rename_i hlt
      rw [List.pairwise_cons]
      refine ⟨?_, ih h.2⟩
      intro a ha
      rcases List.mem_cons.mp ((insertDescBy_perm key x ys).mem_iff.mp ha) with h1 | h2
      · subst h1
        omega
      · exact h.1 a h2
    · rename_i hnlt
      rw [List.pairwise_cons]
      refine ⟨?_, List.pairwise_cons.mpr h⟩
      intro a ha
      rcases List.mem_cons.mp ha with h1 | h2
      · subst h1
        omega
      · have := h.1 a h2
        omega

theorem sortDescBy_sorted (key : α → Nat) (l : List α) :
    List.Pairwise (fun a b => key b ≤ key a) (sortDescBy key l) := by
  induction l with
  | nil => simp [sortDescBy]
  | cons x xs ih => exact insertDescBy_sorted key x _ ih

theorem dedupFirstAux_nodup [DecidableEq α] (l : List α) :
    ∀ seen : List α,
      (dedupFirstAux seen l).Nodup ∧ ∀ a ∈ dedupFirstAux seen l, a ∉ seen := by
  induction l with
  | nil => intro seen; simp [dedupFirstAux]
  | cons x xs ih =>
    intro seen
    unfold dedupFirstAux
    split
    · rename_i hx
      exact ⟨(ih seen).1, (ih seen).2⟩
    · rename_i hx
      have h1 := (ih (x :: seen)).1
      have h2 := (ih (x :: seen)).2
      constructor
      · rw [List.nodup_cons]
        refine ⟨?_, h1⟩
        intro hmem
        exact (h2 x hmem) (List.mem_cons_self x seen)
      · intro a ha
        rcases List.mem_cons.mp ha with rfl | hmem
        · exact hx
        · intro hseen
          exact (h2 a hmem) (List.mem_cons_of_mem x hseen)

theorem dedupFirst_nodup [DecidableEq α] (l : List α) : (dedupFirst l).Nodup :=
  (dedupFirstAux_nodup l []).1

theorem countOcc_nil [DecidableEq α] (a : α) : countOcc a ([] : List α) = 0 := rfl

theorem countOcc_cons [DecidableEq α] (a x : α) (l : List α) :
    countOcc a (x :: l) = countOcc a l + if x = a then 1 else 0 := by
  unfold countOcc
  rw [List.countP_cons]
  simp

theorem countOcc_append [DecidableEq α] (a : α) (l1 l2 : List α) :
    countOcc a (l1 ++ l2) = countOcc a l1 + countOcc a l2 := by
  unfold countOcc
  rw [List.countP_append]

theorem countOcc_eq_zero [DecidableEq α] (a : α) (l : List α) (h : a ∉ l) :
    countOcc a l = 0 := by
  unfold countOcc
  rw [List.countP_eq_zero]
  intro b hb
  simp only [decide_eq_true_eq]
  intro hba
  exact h (hba ▸ hb)

theorem countOcc_of_nodup [DecidableEq α] (a : α) (l : List α) (h : l.Nodup) :
    countOcc a l = if a ∈ l then 1 else 0 := by
  induction l with
  | nil => simp [countOcc_nil]
  | cons x xs ih =>
    rw [List.nodup_cons] at h
    rw [countOcc_cons, ih h.2]
    by_cases hxa : x = a
    · subst hxa
      have hmem : x ∉ xs := h.1
      simp [hmem]
    · have hax : ¬a = x := fun hc => hxa hc.symm
      by_cases hmem : a ∈ xs
      · simp [hmem, hxa, hax, List.mem_cons]
      · simp [hmem, hxa, hax, List.mem_cons]

theorem filter_three_partition (l : List String) :
    (l.filter (fun s => is_language_level s)).length
      + (l.filter (fun s => !is_language_level s && is_soft_skill s)).length
      + (l.filter (fun s => !is_language_level s && !is_soft_skill s)).length
      = l.length := by
  induction l with
  | nil => rfl
  | cons x xs ih =>
    cases h1 : is_language_level x <;> cases h2 : is_soft_skill x <;>
      simp [List.filter_cons, h1, h2] <;> omega

theorem addMention_conserve (acc : List (String × Bucket)) (c s : String) (k : Nat)
    (hacc : ∀ e ∈ acc, e.2.total_count = (e.2.variants.map (fun kv => kv.2)).sum) :
    ∀ e ∈ addMention acc c s k,
      e.2.total_count = (e.2.variants.map (fun kv => kv.2)).sum := by
  induction acc with
  | nil =>
    intro e he
    simp only [addMention, List.mem_singleton] at he
    subst he
    simp
  | cons hd tl ih =>
    intro e he
    obtain ⟨c0, b0⟩ := hd
    unfold addMention at he
    by_cases hc : c0 = c
    · rw [if_pos hc] at he
      rcases List.mem_cons.mp he with rfl | htl
      · have hb0 := hacc (c0, b0) (List.mem_cons_self _ _)
        simp only at hb0 ⊢
        rw [List.map_append, List.sum_append, ← hb0]
        simp
      · exact hacc e (List.mem_cons_of_mem _ htl)
    · rw [if_neg hc] at he
      rcases List.mem_cons.mp he with rfl | htl
      · exact hacc (c0, b0) (List.mem_cons_self _ _)
      · exact ih (fun f hf => hacc f (List.mem_cons_of_mem _ hf)) e htl

theorem foldl_addMention_conserve (items : List (String × Nat)) :
    ∀ acc : List (String × Bucket),
      (∀ e ∈ acc, e.2.total_count = (e.2.variants.map (fun kv => kv.2)).sum) →
      ∀ e ∈ items.foldl (fun a it => addMention a (normalize it.1) it.1 it.2) acc,
        e.2.total_count = (e.2.variants.map (fun kv => kv.2)).sum := by
  induction items with
  | nil =>
    intro acc hacc e he
    exact hacc e he
  | cons it rest ih =>
    intro acc hacc e he
    rw [List.foldl_cons] at he
    exact ih _ (addMention_conserve acc _ _ _ hacc) e he

theorem normalize_category_conserve (raw : List String) (e : String × Bucket)
    (he : e ∈ normalize_category raw) :
    e.2.total_count = (e.2.variants.map (fun kv => kv.2)).sum := by
  unfold normalize_category at he
  rw [sortDescBy_mem] at he
  rcases List.mem_map.mp he with ⟨e0, he0, rfl⟩
  have h0 := foldl_addMention_conserve (counterItems raw) [] (by simp) e0 he0
  simp only
  have hperm :=
    ((sortDescBy_perm (fun kv => kv.2) e0.2.variants).map (fun kv => kv.2)).sum_eq
  rw [hperm]
  exact h0

theorem lexLe_total (a : List Char) : ∀ b : List Char, lexLe a b = true ∨ lexLe b a = true := by
  induction a with
  | nil => intro b; left; rfl
  | cons x as ih =>
    intro b
    cases b with
    | nil => right; rfl
    | cons y bs =>
      unfold lexLe
      by_cases hxy : x.toNat < y.toNat
      · left
        rw [if_pos hxy]
      · by_cases hyx : y.toNat < x.toNat
        · right
          rw [if_pos hyx]
        · rw [if_neg hxy, if_neg hyx, if_neg hyx, if_neg hxy]
          exact ih bs

theorem lexLe_antisymm (a : List Char) :
    ∀ b : List Char, lexLe a b = true → lexLe b a = true → a = b := by
  induction a with
  | nil =>
    intro b h1 h2
    cases b with
    | nil => rfl
    | cons y bs => exact absurd h2 (by simp [lexLe])
  | cons x as ih =>
    intro b h1 h2
    cases b with
    | nil => exact absurd h1 (by simp [lexLe])
    | cons y bs =>
      unfold lexLe at h1 h2
      by_cases hxy : x.toNat < y.toNat
      · have hyx : ¬y.toNat < x.toNat := by omega
        rw [if_neg hyx, if_pos hxy] at h2
        exact absurd h2 (by simp)
      · by_cases hyx : y.toNat < x.toNat
        · rw [if_neg hxy, if_pos hyx] at h1
          exact absurd h1 (by simp)
        · rw [if_neg hxy, if_neg hyx] at h1
          rw [if_neg hyx, if_neg hxy] at h2
          have hchar : x = y := by
            have : x.toNat = y.toNat := by omega
            exact Char.eq_of_val_eq (UInt32.eq_of_toBitVec_eq (BitVec.eq_of_toNat_eq this))
          rw [hchar, ih bs h1 h2]

theorem strLe_total (a b : String) : strLe a b = true ∨ strLe b a = true :=
  lexLe_total a.data b.data

theorem strLe_antisymm (a b : String) (h1 : strLe a b = true) (h2 : strLe b a = true) :
    a = b := by
  cases a with
  | mk da =>
    cases b with
    | mk db =>
      exact congrArg String.mk (lexLe_antisymm da db h1 h2)

theorem pairKey_comm (a b : String) : pairKey a b = pairKey b a := by
  unfold pairKey
  by_cases h1 : strLe a b = true
  · by_cases h2 : strLe b a = true
    · rw [if_pos h1, if_pos h2, strLe_antisymm a b h1 h2]
    · rw [if_pos h1, if_neg h2]
  · by_cases h2 : strLe b a = true
    · rw [if_neg h1, if_pos h2]
    · rcases strLe_total a b with h | h
      · exact absurd h h1
      · exact absurd h h2

theorem pairKey_eq_cases {a b c d : String} (h : pairKey a b = pairKey c d) :
    (a = c ∧ b = d) ∨ (a = d ∧ b = c) := by
  unfold pairKey at h
  by_cases h1 : strLe a b = true <;> by_cases h2 : strLe c d = true <;>
    [rw [if_pos h1, if_pos h2] at h; rw [if_pos h1, if_neg h2] at h;
     rw [if_neg h1, if_pos h2] at h; rw [if_neg h1, if_neg h2] at h] <;>
    · have he1 := congrArg Prod.fst h
      have he2 := congrArg Prod.snd h
      simp only at he1 he2
      tauto

theorem orderedPairs_mem {p : α × α} : ∀ {l : List α}, p ∈ orderedPairs l → p.1 ∈ l ∧ p.2 ∈ l := by
  intro l
  induction l with
  | nil => intro h; exact absurd h (by simp [orderedPairs])
  | cons x xs ih =>
    intro h
    unfold orderedPairs at h
    rcases List.mem_append.mp h with h | h
    · rcases List.mem_map.mp h with ⟨y, hy, rfl⟩
      exact ⟨List.mem_cons_self _ _, List.mem_cons_of_mem _ hy⟩
    · have := ih h
      exact ⟨List.mem_cons_of_mem _ this.1, List.mem_cons_of_mem _ this.2⟩

theorem orderedPairs_ne {p : α × α} :
    ∀ {l : List α}, l.Nodup → p ∈ orderedPairs l → p.1 ≠ p.2 := by
  intro l
  induction l with
  | nil => intro _ h; exact absurd h (by simp [orderedPairs])
  | cons x xs ih =>
    intro hn h
    rw [List.nodup_cons] at hn
    unfold orderedPairs at h
    rcases List.mem_append.mp h with h | h
    · rcases List.mem_map.mp h with ⟨y, hy, rfl⟩
      intro hc
      simp only at hc
      exact hn.1 (hc ▸ hy)
    · exact ih hn.2 h

theorem orderedPairs_pairKey_nodup :
    ∀ {l : List String}, l.Nodup →
      ((orderedPairs l).map (fun p => pairKey p.1 p.2)).Nodup := by
  intro l
  induction l with
  | nil => intro _; simp [orderedPairs]
  | cons x xs ih =>
    intro hn
    rw [List.nodup_cons] at hn
    unfold orderedPairs
    rw [List.map_append, List.map_map]
    show ((xs.map fun y => pairKey x y) ++ (orderedPairs xs).map fun p => pairKey p.1 p.2).Nodup
    apply List.Nodup.append
    · apply List.Nodup.map_on ?_ hn.2
      intro y1 h1 y2 h2 heq
      rcases pairKey_eq_cases heq with ⟨_, hbd⟩ | ⟨hxd, hy1x⟩
      · exact hbd
      · exact hy1x.trans hxd
    · exact ih hn.2
    · intro q hq hq2
      rcases List.mem_map.mp hq with ⟨y, hy, rfl⟩
      rcases List.mem_map.mp hq2 with ⟨p, hp, hpk⟩
      have hmem := orderedPairs_mem hp
      rcases pairKey_eq_cases hpk with ⟨hp1x, _⟩ | ⟨_, hp2x⟩
      · exact hn.1 (hp1x ▸ hmem.1)
      · exact hn.1 (hp2x ▸ hmem.2)

theorem vacancyPairs_nodup (v : Vacancy) : (vacancyPairs v).Nodup :=
  orderedPairs_pairKey_nodup (dedupFirst_nodup _)

theorem dedupFirstAux_cons [DecidableEq α] (seen : List α) (x : α) (xs : List α) :
    dedupFirstAux seen (x :: xs) =
      if x ∈ seen then dedupFirstAux seen xs else x :: dedupFirstAux (x :: seen) xs := rfl

theorem dedupFirstAux_congr [DecidableEq α] (l : List α) :
    ∀ s1 s2 : List α, (∀ a, a ∈ s1 ↔ a ∈ s2) → dedupFirstAux s1 l = dedupFirstAux s2 l := by
  induction l with
  | nil => intro s1 s2 _; rfl
  | cons x xs ih =>
    intro s1 s2 h
    rw [dedupFirstAux_cons, dedupFirstAux_cons]
    by_cases hx : x ∈ s1
    · rw [if_pos hx, if_pos ((h x).mp hx)]
      exact ih s1 s2 h
    · rw [if_neg hx, if_neg (fun hc => hx ((h x).mpr hc))]
      congr 1
      apply ih
      intro a
      simp [List.mem_cons, h a]

theorem dedupFirstAux_map [DecidableEq α] [DecidableEq β] (f : α → β) (l : List α) :
    ∀ (seenEl : List α) (seenIm : List β), (∀ a ∈ seenEl, f a ∈ seenIm) →
      dedupFirstAux seenIm ((dedupFirstAux seenEl l).map f)
        = dedupFirstAux seenIm (l.map f) := by
  induction l with
  | nil => intro _ _ _; rfl
  | cons x xs ih =>
    intro seenEl seenIm h
    by_cases hx : x ∈ seenEl
    · have hred : dedupFirstAux seenEl (x :: xs) = dedupFirstAux seenEl xs := by
        rw [dedupFirstAux_cons, if_pos hx]
      rw [hred, ih seenEl seenIm h, List.map_cons, dedupFirstAux_cons, if_pos (h x hx)]
    · have hred : dedupFirstAux seenEl (x :: xs) = x :: dedupFirstAux (x :: seenEl) xs := by
        rw [dedupFirstAux_cons, if_neg hx]
      rw [hred, List.map_cons, List.map_cons, dedupFirstAux_cons, dedupFirstAux_cons]
      by_cases hfx : f x ∈ seenIm
      · rw [if_pos hfx, if_pos hfx]
        apply ih
        intro a ha
        rcases List.mem_cons.mp ha with rfl | ha
        · exact hfx
        · exact h a ha
      · rw [if_neg hfx, if_neg hfx]
        congr 1
        apply ih
        intro a ha
        rcases List.mem_cons.mp ha with rfl | ha
        · exact List.mem_cons_self _ _
        · exact List.mem_cons_of_mem _ (h a ha)

theorem addMention_keys (acc : List (String × Bucket)) (c s : String) (k : Nat) :
    (addMention acc c s k).map Prod.fst =
      if c ∈ acc.map Prod.fst then acc.map Prod.fst else acc.map Prod.fst ++ [c] := by
  induction acc with
  | nil => simp [addMention]
  | cons hd tl ih =>
    obtain ⟨c0, b0⟩ := hd
    unfold addMention
    by_cases hc : c0 = c
    · subst hc
      rw [if_pos rfl]
      rw [if_pos (by simp)]
      simp
    · rw [if_neg hc]
      simp only [List.map_cons, ih]
      by_cases hmem : c ∈ tl.map Prod.fst
      · rw [if_pos hmem, if_pos (by simp [hmem])]
      · rw [if_neg hmem, if_neg ?_]
        · simp
        · simp only [List.mem_cons]
          intro hcon
          rcases hcon with h | h
          · exact hc h.symm
          · exact hmem h

theorem foldl_addMention_keys (items : List (String × Nat)) :
    ∀ acc : List (String × Bucket),
      (items.foldl (fun a it => addMention a (normalize it.1) it.1 it.2) acc).map Prod.fst
        = acc.map Prod.fst ++
            dedupFirstAux (acc.map Prod.fst) (items.map (fun it => normalize it.1)) := by
  induction items with
  | nil => intro acc; simp [dedupFirstAux]
  | cons it rest ih =>
    intro acc
    rw [List.foldl_cons, ih, addMention_keys, List.map_cons, dedupFirstAux_cons]
    by_cases hmem : normalize it.1 ∈ acc.map Prod.fst
    · rw [if_pos hmem, if_pos hmem]
    · rw [if_neg hmem, if_neg hmem, List.append_assoc, List.singleton_append]
      congr 2
      apply dedupFirstAux_congr
      intro a
      simp only [List.mem_append, List.mem_cons, List.mem_singleton]
      tauto

theorem normalize_category_length (raw : List String) :
    (normalize_category raw).length = (dedupFirst (raw.map normalize)).length := by
  unfold normalize_category
  rw [sortDescBy_length, List.length_map]
  have hlen :
      ((counterItems raw).foldl (fun a it => addMention a (normalize it.1) it.1 it.2) []).length
        = (((counterItems raw).foldl
            (fun a it => addMention a (normalize it.1) it.1 it.2) []).map Prod.fst).length := by
    rw [List.length_map]
  rw [hlen, foldl_addMention_keys (counterItems raw) []]
  simp only [List.map_nil, List.nil_append]
  have hmaps : (counterItems raw).map (fun it => normalize it.1)
      = (dedupFirst raw).map normalize := by
    unfold counterItems
    rw [List.map_map]
    rfl
  rw [hmaps]
  show (dedupFirstAux [] ((dedupFirstAux [] raw).map normalize)).length = _
  rw [dedupFirstAux_map normalize raw [] []
    (fun a ha => absurd ha (List.not_mem_nil a))]
  rfl

/-! ## Theorems settling the claims -/

/-- Claim C1 (code bug, evaluation at the failing input): the curated table
entry maps the variant `кубернетес` to `Kubernetes`, yet `normalize` returns
`Python` for it, because building `self.mapping` strips every variant with
`[^a-z0-9]`, collapsing all Cyrillic-only variants onto the empty key, whose
last writer is `питон -> Python`.  Likewise the entry `c++ -> C/C++` is
shadowed by `c# -> C#` on the shared key `c`.  The fallback clause of the
claim does hold, as the last conjunct illustrates on a string outside the
table. -/
theorem claim1_lookup_contradicts_curated_table :
    ("кубернетес", "Kubernetes") ∈ SYNONYMS ∧ normalize "кубернетес" = "Python" ∧
    ("c++", "C/C++") ∈ SYNONYMS ∧ normalize "C++" = "C#" ∧
    normalize "  data engineering  " = "Data Engineering" := by
  decide

/-- Claim C2 (code bug, evaluation at the failing input): on the two-vacancy
scenario the technical counts `{Golang: 2, PostgreSQL: 1, Docker: 1}` and the
co-occurrence pairs `{(Golang, PostgreSQL): 1, (Docker, Golang): 1}` come out
exactly as claimed, but the soft-skill bucket is named `Python` (the
empty-key synonym collision), not the title-cased `Стрессоустойчивость` that
the claim and the spec expect. -/
theorem claim2_end_to_end_scenario :
    analyze_skills exampleVacancies =
    { technical := [("Golang", ⟨2, [("Go", 1), ("golang", 1)]⟩),
                    ("PostgreSQL", ⟨1, [("PostgreSQL", 1)]⟩),
                    ("Docker", ⟨1, [("Docker", 1)]⟩)]
      soft := [("Python", ⟨1, [("стрессоустойчивость", 1)]⟩)]
      languages := []
      total_mentions := 5
      unique_raw := 5
      unique_normalized := 4
      combinations := [(("Golang", "PostgreSQL"), 1), (("Docker", "Golang"), 1)] } := by
  decide

/-- Claim C3 (code bug, evaluation at the failing inputs): the empty and the
whitespace-only string do classify as technical (no pattern matches), but
they do not normalize to an empty or trivial canonical name: both strip to
the empty lookup key, which the collapsed synonym table maps to the curated
canonical name `Python`. -/
theorem claim3_empty_string_normalization :
    is_language_level "" = false ∧ is_soft_skill "" = false ∧
    is_language_level " " = false ∧ is_soft_skill " " = false ∧
    raw_technical [⟨["", " "]⟩] = ["", " "] ∧
    raw_soft [⟨["", " "]⟩] = [] ∧ raw_languages [⟨["", " "]⟩] = [] ∧
    normalize "" = "Python" ∧ normalize " " = "Python" ∧
    ("питон", "Python") ∈ SYNONYMS := by
  decide

/-- Claim C4, counterexample: on a single vacancy whose skills are `python`
(technical) and `стрессоустойчивость` (soft), both mentions normalize to the
canonical name `Python`, so the categories of the output share one canonical
name; `unique_normalized` is 2 (the per-category sizes summed) while the
number of distinct canonical names across all three categories combined is
1 — the claimed equality fails. -/
theorem claim4_counterexample :
    (analyze_skills [⟨["python", "стрессоустойчивость"]⟩]).unique_normalized = 2 ∧
    combinedDistinctCanonicals [⟨["python", "стрессоустойчивость"]⟩] = 1 ∧
    (analyze_skills [⟨["python", "стрессоустойчивость"]⟩]).unique_normalized ≠
      combinedDistinctCanonicals [⟨["python", "стрессоустойчивость"]⟩] := by
  decide

/-- Claim C10: every string whose lower-cased form contains no ASCII letter
and no ASCII digit — the empty string, whitespace-only strings, purely
Cyrillic strings — strips to the empty lookup key, and the synonym table
built with `[^a-z0-9]`-stripping defines that key (its last writer being the
entry `питон -> Python`), so `normalize` returns `Python` for every such
string. -/
theorem claim10_no_ascii_alnum_normalizes_to_Python (s : String)
    (h : ∀ c ∈ (pyLower s).data,
      ¬(('A' ≤ c ∧ c ≤ 'Z') ∨ ('a' ≤ c ∧ c ≤ 'z') ∨ ('0' ≤ c ∧ c ≤ '9'))) :
    normalize s = "Python" := by
  have hfilter : (pyLower s).data.filter isKeyChar = [] := by
    apply List.filter_eq_nil_iff.mpr
    intro c hc
    have hn := h c hc
    unfold isKeyChar
    simp only [Bool.or_eq_true, Bool.and_eq_true, decide_eq_true_eq]
    intro hcontra
    exact hn (by tauto)
  have hkey : stripKey s = "" := by
    unfold stripKey
    rw [hfilter]
  have hlook : mapping.lookup ("" : String) = some "Python" := by decide
  unfold normalize
  rw [hkey, hlook]

/-- Witness for C10 at the concrete Cyrillic input from the claim. -/
theorem claim10_witness : normalize "стрессоустойчивость" = "Python" :=
  claim10_no_ascii_alnum_normalizes_to_Python "стрессоустойчивость" (by decide)

/-- Claim C5: the categorisation loop assigns every raw skill mention to
exactly one of the three lists (language-proficiency first, then soft, else
technical — the filters encode exactly the `if`/`elif`/`else` of the source),
so the three category lengths sum to the total mention count and
`total_mentions` equals the number of mentions with none counted twice. -/
theorem claim5_category_partition (vacancies : List Vacancy) :
    (raw_languages vacancies).length + (raw_soft vacancies).length +
      (raw_technical vacancies).length = (allMentions vacancies).length ∧
    (analyze_skills vacancies).total_mentions = (allMentions vacancies).length := by
  have hmain : ∀ vs : List Vacancy,
      (raw_languages vs).length + (raw_soft vs).length + (raw_technical vs).length
        = (allMentions vs).length := by
    intro vs
    induction vs with
    | nil => rfl
    | cons v rest ih =>
      simp only [raw_languages, raw_soft, raw_technical, allMentions, List.map_cons,
        List.flatten_cons, List.length_append] at ih ⊢
      have hp := filter_three_partition v.skills
      omega
  refine ⟨hmain vacancies, ?_⟩
  show (raw_technical vacancies).length + (raw_soft vacancies).length +
    (raw_languages vacancies).length = (allMentions vacancies).length
  have := hmain vacancies
  omega

/-- Claim C6: in every category of the output of `analyze_skills`, every
canonical-skill bucket's `total_count` equals the sum of the counts of its
variant list. -/
theorem claim6_bucket_conservation (vacancies : List Vacancy) (name : String) (b : Bucket)
    (h : (name, b) ∈ (analyze_skills vacancies).technical ∨
         (name, b) ∈ (analyze_skills vacancies).soft ∨
         (name, b) ∈ (analyze_skills vacancies).languages) :
    b.total_count = (b.variants.map (fun kv => kv.2)).sum := by
  rcases h with h | h | h
  · exact normalize_category_conserve (raw_technical vacancies) (name, b) h
  · exact normalize_category_conserve (raw_soft vacancies) (name, b) h
  · exact normalize_category_conserve (raw_languages vacancies) (name, b) h

/-- Witness for C6: the `Golang` bucket of the end-to-end scenario has
`total_count` 2 and variants `Go` and `golang` with count 1 each. -/
theorem claim6_witness :
    (Bucket.mk 2 [("Go", 1), ("golang", 1)]).total_count =
      ((Bucket.mk 2 [("Go", 1), ("golang", 1)]).variants.map (fun kv => kv.2)).sum :=
  claim6_bucket_conservation exampleVacancies "Golang" (Bucket.mk 2 [("Go", 1), ("golang", 1)])
    (Or.inl (by decide))

/-- Claim C4, amended: `unique_normalized` equals the sum, over the three
categories, of the number of distinct canonical names within that category (a
canonical name appearing in more than one category is counted once per
category, not once overall). -/
theorem claim4_unique_normalized_per_category (vacancies : List Vacancy) :
    (analyze_skills vacancies).unique_normalized =
      (dedupFirst ((raw_technical vacancies).map normalize)).length +
      (dedupFirst ((raw_soft vacancies).map normalize)).length +
      (dedupFirst ((raw_languages vacancies).map normalize)).length := by
  show (normalize_category (raw_technical vacancies)).length +
      (normalize_category (raw_soft vacancies)).length +
      (normalize_category (raw_languages vacancies)).length = _
  rw [normalize_category_length, normalize_category_length, normalize_category_length]

/-- Claim C7: the co-occurrence loop works on the de-duplicated per-vacancy
set of canonical technical names, so a single vacancy feeds every pair key
into the counter at most once, and the final counter value of a pair is the
number of vacancies whose pair set contains it. -/
theorem claim7_cooccurrence_deduplicated (vacancies : List Vacancy) (v : Vacancy)
    (p : String × String) :
    countOcc p (vacancyPairs v) ≤ 1 ∧
    comboCount vacancies p = vacancies.countP (fun w => decide (p ∈ vacancyPairs w)) := by
  constructor
  · rw [countOcc_of_nodup p _ (vacancyPairs_nodup v)]
    split <;> omega
  · unfold comboCount comboPairs
    induction vacancies with
    | nil => rfl
    | cons w rest ih =>
      rw [List.map_cons, List.flatten_cons, countOcc_append, List.countP_cons, ih,
        countOcc_of_nodup p _ (vacancyPairs_nodup w)]
      by_cases hmem : p ∈ vacancyPairs w
      · simp [hmem]
        omega
      · simp [hmem]

/-- Claim C8: pair identity in the co-occurrence counter is
order-independent — the counter looks pairs up through the lexicographically
sorted 2-tuple, so the counts for `(A, B)` and `(B, A)` coincide — and every
pair key ever recorded is strictly sorted, hence has distinct components. -/
theorem claim8_pair_symmetry (vacancies : List Vacancy) (a b : String) :
    comboCount vacancies (pairKey a b) = comboCount vacancies (pairKey b a) ∧
    ∀ p ∈ comboPairs vacancies, strLe p.1 p.2 = true ∧ p.1 ≠ p.2 := by
  constructor
  · rw [pairKey_comm]
  · intro p hp
    unfold comboPairs at hp
    rcases List.mem_flatten.mp hp with ⟨pl, hpl, hppl⟩
    rcases List.mem_map.mp hpl with ⟨v, hv, rfl⟩
    unfold vacancyPairs at hppl
    rcases List.mem_map.mp hppl with ⟨q, hq, rfl⟩
    have hne : q.1 ≠ q.2 := orderedPairs_ne (dedupFirst_nodup _) hq
    unfold pairKey
    by_cases hle : strLe q.1 q.2 = true
    · rw [if_pos hle]
      exact ⟨hle, hne⟩
    · rw [if_neg hle]
      rcases strLe_total q.1 q.2 with h | h
      · exact absurd h hle
      · exact ⟨h, fun hc => hne hc.symm⟩

/-- Witness for C8 on the end-to-end scenario: the recorded pair
`(Golang, PostgreSQL)` is strictly sorted, and lookups through the sorted key
agree in both argument orders. -/
theorem claim8_witness :
    comboCount exampleVacancies (pairKey "Golang" "PostgreSQL") =
      comboCount exampleVacancies (pairKey "PostgreSQL" "Golang") ∧
    strLe "Golang" "PostgreSQL" = true ∧ "Golang" ≠ "PostgreSQL" :=
  ⟨(claim8_pair_symmetry exampleVacancies "Golang" "PostgreSQL").1,
   (claim8_pair_symmetry exampleVacancies "Golang" "PostgreSQL").2
     ("Golang", "PostgreSQL") (by decide)⟩

/-- Claim C9: `combinations` is the pair counter stably sorted by descending
count and truncated to 30 entries — its length is the minimum of 30 and the
number of distinct pairs (so exactly 30 when more than 30 distinct pairs
arise), it is ordered by descending count, and when at most 30 distinct pairs
exist every one of them is returned. -/
theorem claim9_top30 (vacancies : List Vacancy) :
    (analyze_skills vacancies).combinations.length =
      min 30 (counterItems (comboPairs vacancies)).length ∧
    List.Pairwise (fun e f => f.2 ≤ e.2) (analyze_skills vacancies).combinations ∧
    ((counterItems (comboPairs vacancies)).length ≤ 30 →
      ∀ e ∈ counterItems (comboPairs vacancies),
        e ∈ (analyze_skills vacancies).combinations) := by
  refine ⟨?_, ?_, ?_⟩
  · show ((sortDescBy (fun e => e.2)
      (counterItems (comboPairs vacancies))).take 30).length = _
    rw [List.length_take, sortDescBy_length]
  · show List.Pairwise (fun e f => f.2 ≤ e.2)
      ((sortDescBy (fun e => e.2) (counterItems (comboPairs vacancies))).take 30)
    exact List.Pairwise.sublist (List.take_sublist 30 _) (sortDescBy_sorted _ _)
  · intro hle e he
    show e ∈ (sortDescBy (fun e => e.2) (counterItems (comboPairs vacancies))).take 30
    rw [List.take_of_length_le (by rw [sortDescBy_length]; exact hle)]
    exact (sortDescBy_mem _ _ _).mpr he

/-- Witness for C9 on the end-to-end scenario: two distinct pairs exist, the
output has length `min 30 2` and contains the concrete counter entry. -/
theorem claim9_witness :
    (analyze_skills exampleVacancies).combinations.length = min 30 2 ∧
    (("Golang", "PostgreSQL"), 1) ∈ (analyze_skills exampleVacancies).combinations := by
  constructor
  · have h := (claim9_top30 exampleVacancies).1
    have hlen : (counterItems (comboPairs exampleVacancies)).length = 2 := by decide
    rw [h, hlen]
  · exact (claim9_top30 exampleVacancies).2.2 (by decide) (("Golang", "PostgreSQL"), 1) (by decide)

end HH
